import Mathlib

/-!
Verification development for the MJ-RAG pipeline (`src/mj_rag/algorithm.py`).

The Python code is shallowly embedded: Python strings become `String` or
`List Char`, dictionaries become structures/inductives, the external
collaborators (completion service, embedding service, SQL store, tokenizer,
cryptographic hash) become explicit function parameters, and the on-disk
JSON caches become association lists passed in and out.  All definitions are
translated from the source, method by method; theorems then settle the
frozen claims about them.
-/

/-- One role/content turn sent to the completion service
(Python dict of the shape used by `llm_service.complete_messages`). -/
structure Msg where
  role : String
  content : String
deriving DecidableEq

/-- Convenience for the ubiquitous user-role turn. -/
def userMsg (content : String) : Msg := Msg.mk "user" content

/-- `SectionAnswerMode` from `algorithm.py` (the six answer strategies). -/
inductive SectionAnswerMode : Type where
  | FIRST_BEST_RAW
  | FIRST_BEST_SUMMARY
  | TOP_K_RAW
  | TOP_K_SUMMARY
  | TOP_K_COMBINE
  | TOP_K_RESTRANSCRIPT
deriving DecidableEq

/-! ## Document hashing (`get_doc_hash`, lines 884-890)

The Python code substitutes `re.compile(r" ")` by the empty string (removing
every space character U+0020), then substitutes `re.compile(r"\n{2,}")` by a
single newline (collapsing every maximal run of two or more newlines to one),
then applies sha256 and hex-encodes.  The cryptographic hash itself is an
external primitive: it is a parameter `hashFn`, a deterministic function of
the normalized character list. -/

/-- `self.rgx_space.sub('', content)`: remove every space character. -/
def removeSpaces (s : List Char) : List Char :=
  s.filter (fun c => c ≠ ' ')

/-- Worker for `collapseNewlines`; the boolean records whether the previous
kept character position was inside a newline run.  A maximal run of one or
more newlines yields exactly one newline, which is the effect of
`re.sub(r"\n{2,}", "\n", s)` (runs of two or more collapse to one, single
newlines are untouched). -/
def collapseGo : Bool → List Char → List Char
  | _, [] => []
  | prevNl, c :: rest =>
    if c = '\n' then
      if prevNl then collapseGo true rest
      else '\n' :: collapseGo true rest
    else
      c :: collapseGo false rest

/-- `self.rgx_2_lines.sub('\n', content)`. -/
def collapseNewlines (s : List Char) : List Char :=
  collapseGo false s

/-- The normalization performed by `get_doc_hash` before hashing. -/
def normalizeDoc (s : List Char) : List Char :=
  collapseNewlines (removeSpaces s)

/-- `get_doc_hash`, with the sha256-hex primitive abstracted as `hashFn`. -/
def get_doc_hash (hashFn : List Char → String) (content : List Char) : String :=
  hashFn (normalizeDoc content)

/-- Modelled from the spec: the normalization the specification describes,
"strip all whitespace characters, then collapse 2+ consecutive newlines to
one".  Stated only to be compared with `normalizeDoc`, the normalization the
code performs. -/
def specNormalizeDoc (s : List Char) : List Char :=
  collapseNewlines (s.filter (fun c => ¬ c.isWhitespace))

/-! ## Answer self-verification (`check_if_answer_is_correct`, lines 411-432)

The method builds one user turn, sends it to the completion service and
returns `True` exactly when `'yes' in to_parse.lower()`.  The prompt literal
is abstracted as `msgContent` (its text plays no role); the substring test
and the lowercasing are embedded exactly. -/

/-- `s.startswith(p)` on character lists. -/
def startsWithList : List Char → List Char → Bool
  | _, [] => true
  | [], _ :: _ => false
  | c :: s, d :: p => if c = d then startsWithList s p else false

/-- Python `p in s` (substring containment) on character lists. -/
def containsSub : List Char → List Char → Bool
  | [], p => startsWithList [] p
  | c :: rest, p => startsWithList (c :: rest) p || containsSub rest p

/-- The characters of the literal `'yes'`. -/
def yesChars : List Char := 'y' :: 'e' :: 's' :: []

/-- Python `to_parse.lower()` on the reply. -/
def lowerData (s : String) : List Char :=
  s.data.map Char.toLower

/-- `check_if_answer_is_correct`: one completion-service round trip on the
prompt `msgContent`, then `'yes' in reply.lower()`. -/
def check_if_answer_is_correct (llm : List Msg → String) (msgContent : String) : Bool :=
  containsSub (lowerData (llm [userMsg msgContent])) yesChars

/-! ## Sentence-window chunker (`split_content_by_sentences`, lines 752-763)

After splitting the document on `rgx_sentence_limiter` and discarding
whitespace-only fragments, the code runs

    for i in range(0, total_lines - 3, 2):
        step = i + (count * 2)
        sentence = ""
        for j, part in enumerate(lines[i:step]):
            if self.rgx_sentence_limiter.match(part): sentence = sentence + part
            else: sentence = sentence + " " + part
        sentences_set.append(sentence)

The fragment list `lines` is the input here; the claims are about the window
loop, which is embedded exactly: window starts are `range(0, total - 3, 2)`
and each window is the joined slice `lines[i : i + count * 2]`. -/

/-- Prefix match of `rgx_sentence_limiter = ((?:[\.\?!\n][\n ]+)|(?:\n))`:
the fragment starts with a terminator followed by a space or newline, or
starts with a bare newline (`re.match` anchors at the start). -/
def limiterMatch : List Char → Bool
  | [] => false
  | c :: [] => c = '\n'
  | c :: d :: _ =>
    ((c = '.' || c = '?' || c = '!' || c = '\n') && (d = '\n' || d = ' '))
      || c = '\n'

/-- The inner `for j, part in enumerate(lines[i:step])` accumulation. -/
def joinWindow (parts : List String) : String :=
  parts.foldl
    (fun sentence part =>
      if limiterMatch part.data then sentence ++ part else sentence ++ " " ++ part)
    ""

/-- `range(0, total - 3, 2)` as a list (empty when `total ≤ 3`, matching the
empty Python range for a non-positive stop). -/
def windowStarts (total : Nat) : List Nat :=
  (List.range ((total - 3 + 1) / 2)).map (fun k => 2 * k)

/-- The window-building loop of `split_content_by_sentences`: one window per
start index, each the joined slice `lines[i : i + count * 2]`. -/
def split_content_by_sentences_windows (lines : List String) (count : Nat) : List String :=
  (windowStarts lines.length).map
    (fun i => joinWindow ((lines.drop i).take (count * 2)))

/-! ## Embedding batcher (`get_embeddings_for_sentences`, lines 918-958)

On a cache miss the method walks the sentence list with an accumulation
buffer `tmp_sentences` and its running token count; when adding the next
sentence would push the count above 250,000 it sends the buffer to
`encode_documents` and restarts the buffer with that sentence; a final
non-empty buffer is sent at the end.  `tokens` stands for
`len(encoding.encode(s))` of the external tokenizer.  The embedding returns
the list of buffers handed to `encode_documents`, in order — the quantity
the claim speaks about. -/

/-- The loop of `get_embeddings_for_sentences`: arguments are the remaining
sentences, the current buffer `tmp_sentences` and its running token count
`tmp_tokens_count`; the result is the list of batches passed to
`encode_documents` (the final `if tmp_sentences:` flush included). -/
def batchGo (tokens : String → Nat) : List String → List String → Nat → List (List String)
  | [], tmp, _ => if tmp.isEmpty then [] else [tmp]
  | s :: rest, tmp, tmpCount =>
    let tc := tokens s
    if tmpCount + tc > 250000 then
      tmp :: batchGo tokens rest [s] tc
    else
      batchGo tokens rest (tmp ++ [s]) (tmpCount + tc)

/-- The batches `get_embeddings_for_sentences` sends to `encode_documents`
for `sentences_set`, starting from the empty buffer. -/
def get_embeddings_batches (tokens : String → Nat) (sentences_set : List String) : List (List String) :=
  batchGo tokens sentences_set [] 0

/-- Total token count of one batch. -/
def sumTokens (tokens : String → Nat) (batch : List String) : Nat :=
  batch.foldl (fun acc s => acc + tokens s) 0

/-! ## Section trees and the enricher (`enrich_sections`, lines 961-989)

A raw section node is the dict `{header, content, subsections}` the LLM
returns; document text is carried as `List Char`.  `enrich_sections`
prefixes each node's content with a markdown heading marker of its depth,
recurses into the subsections with `parents + [header]` and `level + 1`, and
appends each enriched child's aggregated content; it also records `parents`
and `level` on the node.  When `subsections` is empty or missing the Python
code skips the recursion, which coincides with recursing on the empty
list. -/

/-- A raw section node `{header, content, subsections}`. -/
inductive Sec : Type where
  | node : String → List Char → List Sec → Sec

def Sec.header : Sec → String
  | Sec.node h _ _ => h

def Sec.content : Sec → List Char
  | Sec.node _ c _ => c

def Sec.subsections : Sec → List Sec
  | Sec.node _ _ s => s

/-- An enriched node: header, aggregated content, enriched subsections,
ancestor headers (root to immediate parent) and depth. -/
inductive ESec : Type where
  | mk : String → List Char → List ESec → List String → Nat → ESec

def ESec.header : ESec → String
  | ESec.mk h _ _ _ _ => h

def ESec.content : ESec → List Char
  | ESec.mk _ c _ _ _ => c

def ESec.subsections : ESec → List ESec
  | ESec.mk _ _ s _ _ => s

def ESec.parents : ESec → List String
  | ESec.mk _ _ _ p _ => p

def ESec.level : ESec → Nat
  | ESec.mk _ _ _ _ l => l

/-- `f"{'#'*level} {header}\n\n{section['content']}"`: the node's own
markdown-heading-prefixed immediate text. -/
def ownData (level : Nat) (header : String) (content : List Char) : List Char :=
  List.replicate level '#' ++ ' ' :: header.data ++ '\n' :: '\n' :: content

/-- The `content += f"\n\n{subsection['content']}"` accumulation over the
enriched children, in child order. -/
def joinChildren (es : List ESec) : List Char :=
  (es.map (fun e => '\n' :: '\n' :: e.content)).foldr (fun a b => a ++ b) []

/-- `enrich_sections` (the top-level call passes `parents = []` and
`level = 1`). -/
def enrich_sections : List Sec → List String → Nat → List ESec
  | [], _, _ => []
  | Sec.node h c subs :: rest, parents, level =>
    let esubs := enrich_sections subs (parents ++ [h]) (level + 1)
    ESec.mk h (ownData level h c ++ joinChildren esubs) esubs parents level
      :: enrich_sections rest parents level

/-- The aggregated contents of every node of a forest, in document order
(depth-first, node before its subsections). -/
def descData : List ESec → List (List Char)
  | [] => []
  | ESec.mk _ c subs _ _ :: rest => c :: (descData subs ++ descData rest)

/-- `InOrderSub ps s`: the strings `ps` occur in `s` as substrings at
non-decreasing start positions — each subsequent string is found in the
suffix of `s` beginning at the previous occurrence. -/
def InOrderSub : List (List Char) → List Char → Prop
  | [], _ => True
  | p :: ps, s => ∃ u v, s = u ++ p ++ v ∧ InOrderSub ps (p ++ v)

/-! ## The splitter's retry protocol (`split_content_with_llm`, lines 656-732)

The JSON extraction `parse_llm_response_to_json_list` (lines 991-995) locates
the first line-start balanced bracketed array with pyparsing and feeds it to
`json.loads`.  Two distinct failures arise: no bracketed array is found
(`results.as_list()[0]` raises `IndexError`) or the located text fails to
decode (`json.loads` raises `json.JSONDecodeError`).  The retry loop

    errors = []
    for _ in range(5):
        try:
            messages = [{'role': 'user', 'content': prompt}]
            messages.extend(errors)
            response = self.llm_service.complete_messages(messages)
            resp = self.parse_llm_response_to_json_list(response)
            break
        except json.JSONDecodeError as e:
            errors.append({'role': 'user', 'content': f"Your response is not valid JSON: {e}"})
    else:
        raise ValueError(...)

catches `json.JSONDecodeError` only: an `IndexError` propagates and aborts
the call at once.  The parser itself is library code, abstracted as a
function into this error type; the loop is embedded exactly, returning both
the list of message histories handed to the completion service (one per
call, in order) and the outcome. -/

/-- The two failure modes of `parse_llm_response_to_json_list`. -/
inductive ParseErr : Type where
  | indexError
  | jsonDecodeError (msg : String)
deriving DecidableEq

/-- The corrective follow-up turn appended on a decode failure. -/
def errMsgOf (e : String) : Msg :=
  userMsg ("Your response is not valid JSON: " ++ e)

/-- The `for _ in range(5)` retry loop: fuel, the `errors` accumulator and
the histories of the calls already made (most recent first).  Result: the
call histories in order, and the outcome. -/
def splitRetryGo (llm : List Msg → String) (parse : String → Except ParseErr (List Sec))
    (prompt : String) :
    Nat → List Msg → List (List Msg) → List (List Msg) × Except String (List Sec)
  | 0, _, calls =>
    (calls.reverse, Except.error "The LLM cannot return valid JSON after 5 tries.")
  | n + 1, errors, calls =>
    let messages := userMsg prompt :: errors
    match parse (llm messages) with
    | Except.ok t => ((messages :: calls).reverse, Except.ok t)
    | Except.error (ParseErr.jsonDecodeError e) =>
      splitRetryGo llm parse prompt n (errors ++ [errMsgOf e]) (messages :: calls)
    | Except.error ParseErr.indexError =>
      ((messages :: calls).reverse, Except.error "IndexError: list index out of range")

/-- The retry loop as entered by `split_content_with_llm`: 5 attempts, no
prior errors. -/
def splitRetry (llm : List Msg → String) (parse : String → Except ParseErr (List Sec))
    (prompt : String) : List (List Msg) × Except String (List Sec) :=
  splitRetryGo llm parse prompt 5 [] []

/-- The decode-error text of a parse outcome (meaningful on the decode-error
case, which is the only one after which another attempt happens). -/
def errStrOf : Except ParseErr (List Sec) → String
  | Except.error (ParseErr.jsonDecodeError e) => e
  | _ => ""

/-- The `errors` list as it stands before attempt `n` (0-indexed), assuming
every earlier attempt ended in a decode error: one corrective turn per
earlier attempt, in order. -/
def attemptErrs (llm : List Msg → String) (parse : String → Except ParseErr (List Sec))
    (prompt : String) : Nat → List Msg
  | 0 => []
  | n + 1 =>
    let prev := attemptErrs llm parse prompt n
    prev ++ [errMsgOf (errStrOf (parse (llm (userMsg prompt :: prev))))]

/-- The message history sent on attempt `n` (0-indexed): the original prompt
followed by the `n` prior corrective turns. -/
def attemptHistory (llm : List Msg → String) (parse : String → Except ParseErr (List Sec))
    (prompt : String) (n : Nat) : List Msg :=
  userMsg prompt :: attemptErrs llm parse prompt n

/-! ## The splitter with its cache (`split_content_with_llm` and
`get_cached_content_json_tree`, lines 656-732 and 830-845)

The on-disk cache directory `content_to_json_cache` keyed by document hash
becomes an association list; writing a file becomes prepending the pair.
The external collaborators are the fields of `SplitEnv`: the completion
service, the JSON extraction, the prompt template (a fixed f-string of the
title and content, whose text none of the claims depend on), the tiktoken
token counter and the sha256-hex function.  The result carries the updated
cache and how many completion-service calls were made. -/

structure SplitEnv where
  llm : List Msg → String
  parse : String → Except ParseErr (List Sec)
  promptOf : Option String → List Char → String
  tokenCount : String → Nat
  hashFn : List Char → String

/-- Lookup of `content_to_json_cache/{hash}.json`. -/
def cacheLookup : List (String × List ESec) → String → Option (List ESec)
  | [], _ => none
  | (k, v) :: rest, h => if k = h then some v else cacheLookup rest h

/-- `get_cached_content_json_tree`: compute (or accept) the hash, then look
the tree up. -/
def get_cached_content_json_tree (env : SplitEnv) (cache : List (String × List ESec))
    (content : List Char) (docHash : Option String) : String × Option (List ESec) :=
  let h := match docHash with
    | some d => d
    | none => get_doc_hash env.hashFn content
  (h, cacheLookup cache h)

/-- `split_content_with_llm`: cache short-circuit, empty-content guard,
token-budget guard, retry loop, enrichment, cache write.  The `Nat` of the
result counts the completion-service calls made. -/
def split_content_with_llm (env : SplitEnv) (cache : List (String × List ESec))
    (content : List Char) (title : Option String) (docHash : Option String) :
    Except String ((String × List ESec) × List (String × List ESec) × Nat) :=
  let pr := get_cached_content_json_tree env cache content docHash
  match pr.2 with
  | some res => Except.ok ((pr.1, res), cache, 0)
  | none =>
    if content = [] then Except.error "Empty content"
    else
      let prompt := env.promptOf title content
      if env.tokenCount prompt > 100000 then Except.error "TOO MANY TOKENS"
      else
        match splitRetry env.llm env.parse prompt with
        | (calls, Except.ok tree) =>
          let enriched := enrich_sections tree [] 1
          Except.ok ((pr.1, enriched), (pr.1, enriched) :: cache, calls.length)
        | (_, Except.error e) => Except.error e

/-! ## The linearizer (`_linearize_sections`, lines 1013-1031)

By the time `_linearize_sections` runs, `_save_sections_in_sql_db` has set
`sql_doc_id` on every node, so a row carries header, aggregated content,
parents, level, the SQL document id and its subsections.  For each node the
code appends the node itself; then, when hierarchized titles are enabled and
the node has parents, for `i` from `len(parents) - 1` down to `0` it appends
`section.copy()` (a shallow copy sharing every other field) with header
`" - ".join(parents[i:] + [header])`; then it recurses into the
subsections. -/

/-- A persisted enriched section row. -/
inductive PSec : Type where
  | mk : String → List Char → List String → Nat → Nat → List PSec → PSec

def PSec.header : PSec → String
  | PSec.mk h _ _ _ _ _ => h

def PSec.content : PSec → List Char
  | PSec.mk _ c _ _ _ _ => c

def PSec.parents : PSec → List String
  | PSec.mk _ _ p _ _ _ => p

def PSec.level : PSec → Nat
  | PSec.mk _ _ _ l _ _ => l

def PSec.sqlDocId : PSec → Nat
  | PSec.mk _ _ _ _ d _ => d

def PSec.subsections : PSec → List PSec
  | PSec.mk _ _ _ _ _ s => s

/-- `new_section = section.copy(); new_section['header'] = h`: the shallow
copy differing only in header. -/
def PSec.setHeader : PSec → String → PSec
  | PSec.mk _ c p l d s, h => PSec.mk h c p l d s

/-- The synthetic hierarchized rows of one node: for `i` from
`len(parents) - 1` down to `0`, the shallow copy headed
`" - ".join(parents[i:] + [header])`. -/
def hierRows (s : PSec) : List PSec :=
  ((List.range s.parents.length).reverse).map
    (fun i => s.setHeader (String.intercalate " - " (s.parents.drop i ++ [s.header])))

/-- The rows one node itself contributes (its subsections excluded): the
node, then its synthetic rows when enabled and it has parents. -/
def nodeRows (addHier : Bool) (s : PSec) : List PSec :=
  s :: (if addHier = true ∧ s.parents ≠ [] then hierRows s else [])

/-- `_linearize_sections` with `add_hierarchized_titles` as `addHier`. -/
def linearize_sections (addHier : Bool) : List PSec → List PSec
  | [] => []
  | PSec.mk h c p l d subs :: rest =>
    nodeRows addHier (PSec.mk h c p l d subs)
      ++ linearize_sections addHier subs
      ++ linearize_sections addHier rest

/-! ## The answer-mode dispatcher (`_process_section_matchs`, lines 485-510,
and its helpers, lines 512-531 and 775-828)

A section match is the dict the vector store returns.  Its `score` is only
ever interpolated into text, so it is carried as its rendered string; the
SQL store lookup `get_content_from_id` and the completion service are
function parameters.  `_process_section_matchs` under the two `FIRST_BEST`
modes evaluates `matchs[0]`, which raises `IndexError` on an empty list —
embedded as `Option`, with `none` standing for that uncaught error. -/

structure SectionMatch where
  header : String
  parents : List String
  level : Nat
  score : String
  source_title : String
  source_url : Option String
  source_author : Option String
  source_type : Option String
  content : String
  sql_doc_id : Nat
deriving DecidableEq

/-- `_section_match_to_context_entry`: strip the joined parent chain out of
the header, render the hierarchy, the level, the score, the always-present
source title, the present-only optional source fields, then the content. -/
def section_match_to_context_entry (m : SectionMatch) : String :=
  let header :=
    if m.parents ≠ [] then
      (((m.header.replace (String.intercalate " - " m.parents) "").trim).dropWhile
          (fun c => c = '-')).trim
    else m.header
  let parentsHierarchy :=
    if m.parents ≠ [] then String.intercalate " -> " m.parents else ""
  "Header: " ++ header ++ "\nParents Hierarchy: " ++ parentsHierarchy
    ++ "\nLevel: " ++ toString m.level ++ "\nSemantic score: " ++ m.score
    ++ "\nSource title: " ++ m.source_title
    ++ (match m.source_url with
        | some u => "\nSource url: " ++ u
        | none => "")
    ++ (match m.source_author with
        | some a => "\nSource author: " ++ a
        | none => "")
    ++ (match m.source_type with
        | some t => "\nSource type: " ++ t
        | none => "")
    ++ "\nContent: " ++ m.content

/-- `format_context_entries`: join with the fixed separator and wrap in the
fixed banner delimiters. -/
def format_context_entries (entries : List String) : String :=
  "++++++++++++++++\n" ++ String.intercalate "\n~~~~~~~~~\n" entries
    ++ "\n++++++++++++++++"

/-- `generate_summary_from_context_entries`. -/
def generate_summary_from_context_entries (llm : List Msg → String)
    (entries : List String) : String :=
  llm [userMsg ("Generate a summary of the following context and cite your sources\n\n"
    ++ format_context_entries entries)]

/-- `combine_context_entries`. -/
def combine_context_entries (llm : List Msg → String) (entries : List String)
    (question : Option String) : String :=
  match question with
  | some q =>
    llm [userMsg ("Combine the following context in a clear and smart way, and cite your sources to answer \nthis question: "
      ++ q ++ "\n\n" ++ format_context_entries entries)]
  | none =>
    llm [userMsg ("Combine the following context in a clear and smart way, and cite your sources\n\n"
      ++ format_context_entries entries)]

/-- `generate_retranscript_from_context_entries`. -/
def generate_retranscript_from_context_entries (llm : List Msg → String)
    (entries : List String) (question : Option String) : String :=
  match question with
  | some q =>
    llm [userMsg ("Restranscript the following context in a clear and smart way, and cite your sources to answer\nthis question: "
      ++ q ++ "\n\n" ++ format_context_entries entries)]
  | none =>
    llm [userMsg ("Retranscript the following context in a clear and smart way, and cite your sources\n\n"
      ++ format_context_entries entries)]

/-- `_process_section_matchs`: dispatch on the answer mode.  The two
`FIRST_BEST` branches read `matchs[0]`; `none` is the uncaught `IndexError`
of an empty match list.  The four `TOP_K` branches slice `matchs[:top_k]`
and always produce a value. -/
def process_section_matchs (llm : List Msg → String) (getContent : Nat → String)
    (matchs : List SectionMatch) (mode : SectionAnswerMode) (top_k : Nat)
    (question : Option String) : Option String :=
  match mode with
  | SectionAnswerMode.FIRST_BEST_RAW =>
    matchs.head?.map (fun m => getContent m.sql_doc_id)
  | SectionAnswerMode.FIRST_BEST_SUMMARY =>
    matchs.head?.map (fun m =>
      generate_summary_from_context_entries llm [section_match_to_context_entry m])
  | SectionAnswerMode.TOP_K_RAW =>
    some (format_context_entries
      ((matchs.take top_k).map section_match_to_context_entry))
  | SectionAnswerMode.TOP_K_SUMMARY =>
    some (generate_summary_from_context_entries llm
      ((matchs.take top_k).map section_match_to_context_entry))
  | SectionAnswerMode.TOP_K_COMBINE =>
    some (combine_context_entries llm
      ((matchs.take top_k).map section_match_to_context_entry) question)
  | SectionAnswerMode.TOP_K_RESTRANSCRIPT =>
    some (generate_retranscript_from_context_entries llm
      ((matchs.take top_k).map section_match_to_context_entry) question)

/-! ## The strategy engine (`get_answer`, lines 358-406)

Modelled along the classifier path (the caller passes no
`number_of_sentences`, so `_classify_answer_for_question` supplies
`number_of_sentences` and an optional `kind`, both uppercased).  The
external-call results are parameters: `verified` is what
`check_if_answer_is_correct` returned on the draft answer.  The value is the
sequence of retrieval strategies invoked: `direct` is a
`get_direct_answer` call, `sectionRetrieval m` is a
`get_section_as_answer_from_question` call with the resolved mode —
exactly the branching of the source. -/

inductive QAction : Type where
  | direct
  | sectionRetrieval (mode : SectionAnswerMode)
deriving DecidableEq

/-- `get_answer` as the sequence of strategy invocations it performs. -/
def get_answer_actions (classifiedNos : String) (classifiedKind : Option String)
    (verified : Bool) (return_raw : Bool) (mode : Option SectionAnswerMode) :
    Except String (List QAction) :=
  let number_of_sentences := classifiedNos.toUpper
  let kind := classifiedKind.map String.toUpper
  if number_of_sentences = "ONE" then
    Except.ok [QAction.direct]
  else if number_of_sentences = "FEW" then
    if verified then Except.ok [QAction.direct]
    else
      let m := match mode with
        | some m0 => m0
        | none =>
          if return_raw then SectionAnswerMode.TOP_K_RAW
          else SectionAnswerMode.TOP_K_COMBINE
      Except.ok [QAction.direct, QAction.sectionRetrieval m]
  else if number_of_sentences = "TOO_MANY" then
    let m := match mode with
      | some m0 => m0
      | none =>
        if return_raw then SectionAnswerMode.TOP_K_RAW
        else if kind = some "SUMMARY" then SectionAnswerMode.TOP_K_RESTRANSCRIPT
        else SectionAnswerMode.TOP_K_COMBINE
    Except.ok [QAction.sectionRetrieval m]
  else
    Except.error ("Wrong value for number_of_sentences " ++ number_of_sentences)

/-- `InOrderSub ps s` holds with the singleton-structure needed by the
enrichment claim: the node's own markdown-prefixed immediate text followed
by every descendant's aggregated content, in document order, all inside the
node's aggregated content; the second component records the direct
consequence that every descendant's aggregated content is a substring. -/
def EnrichContainment (level : Nat) (s : Sec) (e : ESec) : Prop :=
  InOrderSub (ownData level s.header s.content :: descData e.subsections) e.content
  ∧ ∀ d ∈ descData e.subsections, ∃ u v, e.content = u ++ d ++ v

/-- A tokenizer with one sentence over the 250,000-token cap (for the
batcher counterexample). -/
def tokensCex : String → Nat := fun s => if s = "big" then 300000 else 1

/-- A completion service whose replies contain no bracketed array (for the
retry-protocol counterexample). -/
def cexLlm : List Msg → String := fun _ => "There is no array in this reply."

/-- The parse outcome for such replies: pyparsing finds no match and
`results.as_list()[0]` raises `IndexError`. -/
def cexParse : String → Except ParseErr (List Sec) := fun _ =>
  Except.error ParseErr.indexError

/-- A concrete environment whose completion service immediately yields a
parseable tree (for the cache-short-circuit witness). -/
def cexEnv : SplitEnv where
  llm := fun _ => "resp"
  parse := fun _ => Except.ok [Sec.node "H" ('x' :: []) []]
  promptOf := fun _ _ => "p"
  tokenCount := fun _ => 0
  hashFn := fun l => String.mk l

/-- The enriched tree the first ingestion of `['d']` under `cexEnv`
produces. -/
def cexTree : List ESec :=
  enrich_sections [Sec.node "H" ('x' :: []) []] [] 1

/-- The document hash of `['d']` under `cexEnv`. -/
def cexHash : String :=
  get_doc_hash cexEnv.hashFn ('d' :: [])

/-! # Theorems -/

/-! ## Substring containment (toward C9) -/

theorem startsWithList_iff : ∀ (s p : List Char), startsWithList s p = true ↔ ∃ v, s = p ++ v
  | s, [] => by simp [startsWithList]
  | [], _ :: _ => by simp [startsWithList]
  | c :: s, d :: p => by
    simp only [startsWithList]
    by_cases h : c = d
    · subst h
      rw [if_pos rfl, startsWithList_iff s p]
      constructor
      · rintro ⟨v, rfl⟩
        exact ⟨v, rfl⟩
      · rintro ⟨v, hv⟩
        rw [List.cons_append] at hv
        exact ⟨v, (List.cons.inj hv).2⟩
    · rw [if_neg h]
      constructor
      · intro hf
        exact absurd hf (by simp)
      · rintro ⟨v, hv⟩
        rw [List.cons_append] at hv
        exact absurd (List.cons.inj hv).1 h

theorem containsSub_iff : ∀ (s p : List Char), containsSub s p = true ↔ ∃ u v, s = u ++ p ++ v
  | [], p => by
    rw [containsSub, startsWithList_iff]
    constructor
    · rintro ⟨v, hv⟩
      exact ⟨[], v, by simpa using hv⟩
    · rintro ⟨u, v, huv⟩
      have h1 : u = [] ∧ p ++ v = [] := by
        have := huv.symm
        rw [List.append_assoc] at this
        exact List.append_eq_nil.mp this
      exact ⟨v, by rw [← h1.2]⟩
  | c :: s, p => by
    rw [containsSub, Bool.or_eq_true, startsWithList_iff, containsSub_iff s p]
    constructor
    · rintro (⟨v, hv⟩ | ⟨u, v, huv⟩)
      · exact ⟨[], v, by simpa using hv⟩
      · exact ⟨c :: u, v, by simp [huv]⟩
    · rintro ⟨u, v, huv⟩
      match u, huv with
      | [], huv => exact Or.inl ⟨v, by simpa using huv⟩
      | c' :: u', huv =>
        right
        rw [List.cons_append, List.cons_append, List.cons.injEq] at huv
        exact ⟨u', v, huv.2⟩

/-- C9: `check_if_answer_is_correct` returns `true` exactly when the
completion-service reply, lowercased, contains the substring `"yes"`
anywhere; a negative reply that mentions "yes" elsewhere is treated as
verified, and a reply without the substring (the empty reply included) is
rejected. -/
theorem check_answer_yes_iff (llm : List Msg → String) (msgContent : String) :
    (check_if_answer_is_correct llm msgContent = true ↔
      ∃ u v, lowerData (llm [userMsg msgContent]) = u ++ yesChars ++ v)
    ∧ check_if_answer_is_correct (fun _ => "NO. But yes, the date is mentioned.") "q" = true
    ∧ check_if_answer_is_correct (fun _ => "") "q" = false
    ∧ check_if_answer_is_correct (fun _ => "NO") "q" = false := by
  refine ⟨?_, by decide, by decide, by decide⟩
  rw [check_if_answer_is_correct, containsSub_iff]

/-! ## C10: definedness of the mode dispatcher -/

/-- C10: `_process_section_matchs` is well-defined on an empty match list
only for the four `TOP_K` modes; under `FIRST_BEST_RAW` and
`FIRST_BEST_SUMMARY` it reads `matchs[0]`, so it produces a value exactly
when the match list is non-empty — a non-empty list is a precondition for
those two modes, and under it the index error is unreachable. -/
theorem process_section_matchs_definedness (llm : List Msg → String)
    (getContent : Nat → String) (matchs : List SectionMatch)
    (mode : SectionAnswerMode) (top_k : Nat) (question : Option String) :
    ((mode = SectionAnswerMode.TOP_K_RAW ∨ mode = SectionAnswerMode.TOP_K_SUMMARY ∨
        mode = SectionAnswerMode.TOP_K_COMBINE ∨
        mode = SectionAnswerMode.TOP_K_RESTRANSCRIPT) →
      (process_section_matchs llm getContent matchs mode top_k question).isSome = true)
    ∧ ((mode = SectionAnswerMode.FIRST_BEST_RAW ∨
        mode = SectionAnswerMode.FIRST_BEST_SUMMARY) →
      ((process_section_matchs llm getContent matchs mode top_k question).isSome = true ↔
        matchs ≠ [])) := by
  constructor
  · rintro (rfl | rfl | rfl | rfl) <;> simp [process_section_matchs]
  · rintro (rfl | rfl) <;> cases matchs <;> simp [process_section_matchs]

/-! ## C4: the strategy-engine dispatch -/

/-- C4: along the classifier path of `get_answer`, a question classified
`ONE` performs only the direct sentence-level strategy (no section-header
retrieval); one classified `FEW` whose draft answer fails self-verification
falls through to section retrieval with the caller's explicit mode, or
`TOP_K_RAW` when `return_raw` is set, or `TOP_K_COMBINE` otherwise; any
classification other than `ONE`, `FEW`, `TOO_MANY` is a `ValueError`. -/
theorem get_answer_dispatch_cases (classifiedNos : String)
    (classifiedKind : Option String) (verified return_raw : Bool)
    (mode : Option SectionAnswerMode) :
    (classifiedNos.toUpper = "ONE" →
      get_answer_actions classifiedNos classifiedKind verified return_raw mode =
        Except.ok [QAction.direct] ∧
      ∀ m, QAction.sectionRetrieval m ∉ [QAction.direct])
    ∧ (classifiedNos.toUpper = "FEW" → verified = false →
      get_answer_actions classifiedNos classifiedKind verified return_raw mode =
        Except.ok [QAction.direct, QAction.sectionRetrieval
          (mode.getD
            (if return_raw then SectionAnswerMode.TOP_K_RAW
             else SectionAnswerMode.TOP_K_COMBINE))])
    ∧ (classifiedNos.toUpper ≠ "ONE" → classifiedNos.toUpper ≠ "FEW" →
       classifiedNos.toUpper ≠ "TOO_MANY" →
      get_answer_actions classifiedNos classifiedKind verified return_raw mode =
        Except.error ("Wrong value for number_of_sentences " ++ classifiedNos.toUpper)) := by
  refine ⟨?_, ?_, ?_⟩
  · intro h
    refine ⟨by simp [get_answer_actions, h], by simp⟩
  · intro h hv
    subst hv
    cases mode <;> simp [get_answer_actions, h, Option.getD]
  · intro h1 h2 h3
    simp [get_answer_actions, if_neg h1, if_neg h2, if_neg h3]

/-! ## C5: whitespace normalization before hashing -/

theorem collapseGo_newline_insert : ∀ (a : List Char) (b : Bool) (v : List Char),
    collapseGo b (a ++ '\n' :: '\n' :: v) = collapseGo b (a ++ '\n' :: v)
  | [], b, v => by cases b <;> simp [collapseGo]
  | c :: a, b, v => by
    by_cases hc : c = '\n'
    · subst hc
      cases b <;> simp [collapseGo, collapseGo_newline_insert a true v]
    · simp [collapseGo, hc, collapseGo_newline_insert a false v]

theorem removeSpaces_append (u v : List Char) :
    removeSpaces (u ++ v) = removeSpaces u ++ removeSpaces v := by
  simp [removeSpaces]

/-- C5 (amended): the hash is invariant under inserting an extra space
character anywhere and under inserting an extra newline next to an existing
one — `get_doc_hash` removes every space character (only U+0020; other
whitespace such as tabs survives), then collapses runs of two or more
newlines to a single newline, then hashes the normalized text with the
deterministic hash `hashFn`. -/
theorem get_doc_hash_whitespace (hashFn : List Char → String) (u v : List Char) :
    get_doc_hash hashFn (u ++ ' ' :: v) = get_doc_hash hashFn (u ++ v)
    ∧ get_doc_hash hashFn (u ++ '\n' :: '\n' :: v) = get_doc_hash hashFn (u ++ '\n' :: v) := by
  constructor
  · have h1 : removeSpaces (u ++ ' ' :: v) = removeSpaces (u ++ v) := by
      simp [removeSpaces]
    simp [get_doc_hash, normalizeDoc, h1]
  · have h1 : removeSpaces (u ++ '\n' :: '\n' :: v)
        = removeSpaces u ++ '\n' :: '\n' :: removeSpaces v := by
      simp [removeSpaces]
    have h2 : removeSpaces (u ++ '\n' :: v) = removeSpaces u ++ '\n' :: removeSpaces v := by
      simp [removeSpaces]
    simp only [get_doc_hash, normalizeDoc, collapseNewlines, h1, h2]
    rw [collapseGo_newline_insert]

/-- C5 counterexample: a tab is a whitespace character, yet the code's
normalization keeps it — `normalizeDoc` strips only space characters, not
"all whitespace characters" as claimed (`specNormalizeDoc` is the claimed
normalization).  Inserting a tab into `"ab"` therefore changes the
normalized text, hence the hash for any injective hash function —
sha256's collision resistance is exactly what rules the collision out
(`String.mk` stands in as an injective rendering of the normalized text). -/
theorem get_doc_hash_tab_cex :
    normalizeDoc ('a' :: '\t' :: 'b' :: []) = 'a' :: '\t' :: 'b' :: []
    ∧ specNormalizeDoc ('a' :: '\t' :: 'b' :: []) = 'a' :: 'b' :: []
    ∧ normalizeDoc ('a' :: '\t' :: 'b' :: []) ≠ normalizeDoc ('a' :: 'b' :: [])
    ∧ get_doc_hash String.mk ('a' :: '\t' :: 'b' :: [])
        ≠ get_doc_hash String.mk ('a' :: 'b' :: []) := by
  refine ⟨by decide, by decide, by decide, ?_⟩
  intro h
  exact absurd (congrArg String.data h) (by decide)

/-! ## C6: window starts and the stop condition of the chunker -/

theorem mem_windowStarts (total i : Nat) :
    i ∈ windowStarts total ↔ i % 2 = 0 ∧ i + 3 < total := by
  simp only [windowStarts, List.mem_map, List.mem_range]
  constructor
  · rintro ⟨k, hk, rfl⟩
    omega
  · rintro ⟨h2, h3⟩
    exact ⟨i / 2, by omega, by omega⟩

/-- C6: the sentence-window loop emits windows at start indices
`0, 2, 4, …`, each window the joined slice of `2 * count` fragment slots
from its start, and a start index is used exactly while more than 3
fragments remain from it on (that is, at least 3 strictly past it);
consequently fewer than 4 fragments yield no window at all. -/
theorem sentence_window_positions (lines : List String) (count : Nat) :
    ((split_content_by_sentences_windows lines count).length
        = (lines.length - 3 + 1) / 2)
    ∧ (∀ k (h : k < (split_content_by_sentences_windows lines count).length),
        (split_content_by_sentences_windows lines count).get ⟨k, h⟩
            = joinWindow ((lines.drop (2 * k)).take (count * 2))
          ∧ 2 * k + 3 < lines.length)
    ∧ (∀ i, i ∈ windowStarts lines.length ↔ i % 2 = 0 ∧ i + 3 < lines.length)
    ∧ (lines.length < 4 → split_content_by_sentences_windows lines count = []) := by
  refine ⟨?_, ?_, fun i => mem_windowStarts lines.length i, ?_⟩
  · simp [split_content_by_sentences_windows, windowStarts]
  · intro k h
    have hk : k < (lines.length - 3 + 1) / 2 := by
      simpa [split_content_by_sentences_windows, windowStarts] using h
    constructor
    · simp [split_content_by_sentences_windows, windowStarts, List.getElem_map]
    · omega
  · intro h4
    have h0 : (lines.length - 3 + 1) / 2 = 0 := by omega
    simp [split_content_by_sentences_windows, windowStarts, h0]

/-! ## C7: the embedding batcher -/

theorem sumTokens_append_singleton (tokens : String → Nat) (l : List String) (s : String) :
    sumTokens tokens (l ++ [s]) = sumTokens tokens l + tokens s := by
  simp [sumTokens, List.foldl_append]

theorem batchGo_flatten (tokens : String → Nat) :
    ∀ (rest tmp : List String) (c : Nat),
      (batchGo tokens rest tmp c).flatten = tmp ++ rest
  | [], tmp, c => by cases tmp <;> simp [batchGo]
  | s :: rest, tmp, c => by
    by_cases h : c + tokens s > 250000
    · simp [batchGo, h, batchGo_flatten tokens rest [s] (tokens s)]
    · simp [batchGo, h, batchGo_flatten tokens rest (tmp ++ [s]) (c + tokens s)]

theorem batchGo_bound (tokens : String → Nat) :
    ∀ (rest tmp : List String) (c : Nat),
      c = sumTokens tokens tmp →
      (sumTokens tokens tmp ≤ 250000 ∨ ∃ s, tmp = [s] ∧ tokens s > 250000) →
      ∀ b ∈ batchGo tokens rest tmp c,
        sumTokens tokens b ≤ 250000 ∨ ∃ s, b = [s] ∧ tokens s > 250000
  | [], tmp, c, _, hinv, b, hb => by
    cases tmp with
    | nil => simp [batchGo] at hb
    | cons t ts =>
      simp [batchGo] at hb
      exact hb ▸ hinv
  | s :: rest, tmp, c, hc, hinv, b, hb => by
    by_cases h : c + tokens s > 250000
    · simp only [batchGo, h, if_pos, if_true, List.mem_cons] at hb
      rcases hb with rfl | hb2
      · exact hinv
      · refine batchGo_bound tokens rest [s] (tokens s) (by simp [sumTokens]) ?_ b hb2
        by_cases hs : tokens s ≤ 250000
        · exact Or.inl (by simpa [sumTokens] using hs)
        · exact Or.inr ⟨s, rfl, by omega⟩
    · simp only [batchGo, h, if_neg, if_false] at hb
      refine batchGo_bound tokens rest (tmp ++ [s]) (c + tokens s)
        (by rw [sumTokens_append_singleton, hc]) (Or.inl ?_) b hb
      rw [sumTokens_append_singleton, ← hc]
      omega

/-- C7 (amended): the batcher hands `encode_documents` consecutive batches
whose concatenation is exactly the input sentence list (every sentence
embedded once, in order, the final partial buffer flushed); each batch's
total token count is at most 250,000 except for a batch that is a single
sentence whose own token count already exceeds the cap (when the very first
sentence is oversized the buffer flushed is empty). -/
theorem embedding_batches_spec (tokens : String → Nat) (sentences : List String) :
    ((get_embeddings_batches tokens sentences).flatten = sentences)
    ∧ (∀ b ∈ get_embeddings_batches tokens sentences,
        sumTokens tokens b ≤ 250000 ∨ ∃ s, b = [s] ∧ tokens s > 250000) := by
  constructor
  · simpa using batchGo_flatten tokens sentences [] 0
  · exact batchGo_bound tokens sentences [] 0 (by simp [sumTokens])
      (Or.inl (by simp [sumTokens]))

/-- C7 counterexample: an input with a 300,000-token sentence produces the
batches `[[], ["big"], ["x"]]` — the singleton batch `["big"]` totals
300,000 tokens, exceeding the 250,000 cap the claim asserts is never
exceeded (and the first `encode_documents` call receives an empty batch). -/
theorem embedding_batches_cap_cex :
    get_embeddings_batches tokensCex ["big", "x"] = [[], ["big"], ["x"]]
    ∧ sumTokens tokensCex ["big"] = 300000
    ∧ ¬ (∀ b ∈ get_embeddings_batches tokensCex ["big", "x"],
          sumTokens tokensCex b ≤ 250000) := by
  refine ⟨by decide, by decide, ?_⟩
  intro hall
  exact absurd (hall ["big"] (by decide)) (by decide)

/-! ## C8: enrichment containment -/

theorem inOrderSub_prepend : ∀ (ps : List (List Char)) (u s : List Char),
    InOrderSub ps s → InOrderSub ps (u ++ s)
  | [], _, _, _ => trivial
  | p :: ps, u, s, h => by
    simp only [InOrderSub] at h ⊢
    obtain ⟨a, b, rfl, hrec⟩ := h
    exact ⟨u ++ a, b, by simp, hrec⟩

theorem inOrderSub_append_right : ∀ (ps : List (List Char)) (s w : List Char),
    InOrderSub ps s → InOrderSub ps (s ++ w)
  | [], _, _, _ => trivial
  | p :: ps, s, w, h => by
    simp only [InOrderSub] at h ⊢
    obtain ⟨a, b, rfl, hrec⟩ := h
    refine ⟨a, b ++ w, by simp, ?_⟩
    have h2 := inOrderSub_append_right ps (p ++ b) w hrec
    simpa [List.append_assoc] using h2

theorem inOrderSub_concat : ∀ (xs ys : List (List Char)) (s t : List Char),
    InOrderSub xs s → InOrderSub ys t → InOrderSub (xs ++ ys) (s ++ t)
  | [], ys, s, t, _, hy => by
    simpa using inOrderSub_prepend ys s t hy
  | x :: xs, ys, s, t, hx, hy => by
    simp only [InOrderSub] at hx
    obtain ⟨a, b, rfl, hrec⟩ := hx
    simp only [List.cons_append, InOrderSub]
    refine ⟨a, b ++ t, by simp, ?_⟩
    have h2 := inOrderSub_concat xs ys (x ++ b) t hrec hy
    simpa [List.append_assoc] using h2

theorem inOrderSub_tail (p : List Char) (ps : List (List Char)) (s : List Char)
    (h : InOrderSub (p :: ps) s) : InOrderSub ps s := by
  simp only [InOrderSub] at h
  obtain ⟨a, b, rfl, hrec⟩ := h
  have h2 := inOrderSub_prepend ps a (p ++ b) hrec
  simpa [List.append_assoc] using h2

theorem inOrderSub_mem : ∀ (ps : List (List Char)) (s p : List Char),
    InOrderSub ps s → p ∈ ps → ∃ u v, s = u ++ p ++ v
  | [], _, _, _, hm => absurd hm (by simp)
  | q :: ps, s, p, h, hm => by
    simp only [InOrderSub] at h
    obtain ⟨a, b, rfl, hrec⟩ := h
    rcases List.mem_cons.mp hm with rfl | hm2
    · exact ⟨a, b, rfl⟩
    · obtain ⟨u, v, huv⟩ := inOrderSub_mem ps (q ++ b) p hrec hm2
      refine ⟨a ++ u, v, ?_⟩
      rw [List.append_assoc, huv]
      simp [List.append_assoc]

theorem descData_cons (e : ESec) (rest : List ESec) :
    descData (e :: rest) = e.content :: (descData e.subsections ++ descData rest) := by
  cases e
  simp [descData, ESec.content, ESec.subsections]

theorem joinChildren_cons (e : ESec) (rest : List ESec) :
    joinChildren (e :: rest) = ('\n' :: '\n' :: e.content) ++ joinChildren rest := rfl

/-- Each enriched child contributes its aggregated content and, inside it,
its descendants' aggregated contents, to the `"\n\n"`-separated child
segment it occupies. -/
theorem descData_inOrder_joinChildren {level : Nat} :
    ∀ {ss : List Sec} {es : List ESec},
      List.Forall₂ (EnrichContainment level) ss es →
      InOrderSub (descData es) (joinChildren es) := by
  intro ss es hf
  induction hf with
  | nil =>
    simp only [descData]
    trivial
  | @cons a e la lb hP _ ih =>
    rw [descData_cons, joinChildren_cons, ← List.cons_append]
    refine inOrderSub_concat _ _ _ _ ?_ ih
    simp only [InOrderSub]
    refine ⟨'\n' :: '\n' :: [], [], by simp, ?_⟩
    have h2 := inOrderSub_tail _ _ _ hP.1
    simpa using h2

/-- C8: after enrichment, every node's aggregated content contains, as
substrings at non-decreasing positions, its own markdown-heading-prefixed
immediate text followed by the aggregated content of every descendant in
document order; in particular each descendant's aggregated content is a
substring of the node's aggregated content. -/
theorem enrich_sections_containment :
    ∀ (ss : List Sec) (parents : List String) (level : Nat),
      List.Forall₂ (EnrichContainment level) ss (enrich_sections ss parents level)
  | [], _, _ => by
    simp only [enrich_sections]
    exact List.Forall₂.nil
  | Sec.node h c subs :: rest, parents, level => by
    have ihSubs := enrich_sections_containment subs (parents ++ [h]) (level + 1)
    have ihRest := enrich_sections_containment rest parents level
    simp only [enrich_sections]
    refine List.Forall₂.cons ?_ ihRest
    have hchildren := descData_inOrder_joinChildren ihSubs
    have hmain : InOrderSub
        (ownData level h c :: descData (enrich_sections subs (parents ++ [h]) (level + 1)))
        (ownData level h c ++ joinChildren (enrich_sections subs (parents ++ [h]) (level + 1))) := by
      simp only [InOrderSub]
      refine ⟨[], joinChildren (enrich_sections subs (parents ++ [h]) (level + 1)), by simp, ?_⟩
      exact inOrderSub_prepend _ (ownData level h c) _ hchildren
    constructor
    · simpa [EnrichContainment, Sec.header, Sec.content, ESec.subsections, ESec.content]
        using hmain
    · intro d hd
      simp only [ESec.content]
      exact inOrderSub_mem _ _ d hmain
        (List.mem_cons_of_mem _ (by simpa [ESec.subsections] using hd))

/-! ## C1: the retry protocol of the hierarchical splitter -/

theorem attemptErrs_length (llm : List Msg → String)
    (parse : String → Except ParseErr (List Sec)) (prompt : String) :
    ∀ n, (attemptErrs llm parse prompt n).length = n
  | 0 => rfl
  | n + 1 => by simp [attemptErrs, attemptErrs_length llm parse prompt n]

/-- Invariant of the retry loop, by induction on the remaining fuel `n` with
`k` attempts already failed with decode errors: the call histories are
exactly `attemptHistory 0, 1, …`, their number lies between `k` and `k + n`,
an all-decode-failures run exhausts the fuel with the fatal error, and a
success comes from the last call's response parsing successfully. -/
theorem splitRetryGo_spec (llm : List Msg → String)
    (parse : String → Except ParseErr (List Sec)) (prompt : String) :
    ∀ (n k : Nat) (calls : List (List Msg)) (res : Except String (List Sec)),
      (∀ i, i < k → ∃ e, parse (llm (attemptHistory llm parse prompt i))
          = Except.error (ParseErr.jsonDecodeError e)) →
      splitRetryGo llm parse prompt n (attemptErrs llm parse prompt k)
          (((List.range k).map (attemptHistory llm parse prompt)).reverse) = (calls, res) →
      calls = (List.range calls.length).map (attemptHistory llm parse prompt)
      ∧ (k ≤ calls.length ∧ calls.length ≤ k + n)
      ∧ (0 < n → k < calls.length)
      ∧ ((∀ i, i < k + n → ∃ e, parse (llm (attemptHistory llm parse prompt i))
            = Except.error (ParseErr.jsonDecodeError e)) →
          res = Except.error "The LLM cannot return valid JSON after 5 tries."
          ∧ calls.length = k + n)
      ∧ (∀ t, res = Except.ok t →
          0 < calls.length
          ∧ parse (llm (attemptHistory llm parse prompt (calls.length - 1))) = Except.ok t)
  | 0, k, calls, res, _, heq => by
    simp only [splitRetryGo, List.reverse_reverse] at heq
    obtain ⟨rfl, rfl⟩ := Prod.mk.inj heq.symm
    have hlen : (((List.range k).map (attemptHistory llm parse prompt))).length = k := by
      simp
    refine ⟨by rw [hlen], ⟨by omega, by omega⟩, by omega, fun _ => ⟨rfl, by omega⟩,
      fun t ht => by simp at ht⟩
  | n + 1, k, calls, res, hk, heq => by
    have hmsg : userMsg prompt :: attemptErrs llm parse prompt k
        = attemptHistory llm parse prompt k := rfl
    simp only [splitRetryGo] at heq
    rw [hmsg] at heq
    rcases hp : parse (llm (attemptHistory llm parse prompt k)) with e | t0
    · rcases e with _ | e
      · rw [hp] at heq
        simp only at heq
        obtain ⟨rfl, rfl⟩ := Prod.mk.inj heq.symm
        have hl : ((attemptHistory llm parse prompt k ::
            ((List.range k).map (attemptHistory llm parse prompt)).reverse).reverse).length
            = k + 1 := by simp
        refine ⟨by simp [List.range_succ], ⟨by omega, by omega⟩, fun _ => by omega,
          fun hall => ?_, fun t ht => by simp at ht⟩
        obtain ⟨e2, he2⟩ := hall k (by omega)
        rw [hp] at he2
        simp at he2
      · have herrs : attemptErrs llm parse prompt (k + 1)
            = attemptErrs llm parse prompt k ++ [errMsgOf e] := by
          simp [attemptErrs, hmsg, hp, errStrOf]
        have hacc : attemptHistory llm parse prompt k ::
              ((List.range k).map (attemptHistory llm parse prompt)).reverse
            = (((List.range (k + 1)).map (attemptHistory llm parse prompt)).reverse) := by
          simp [List.range_succ]
        rw [hp] at heq
        simp only at heq
        rw [← herrs, hacc] at heq
        have hknew : ∀ i, i < k + 1 →
            ∃ e2, parse (llm (attemptHistory llm parse prompt i))
              = Except.error (ParseErr.jsonDecodeError e2) := by
          intro i hi
          rcases Nat.lt_succ_iff_lt_or_eq.mp hi with hlt | rfl
          · exact hk i hlt
          · exact ⟨e, hp⟩
        obtain ⟨ih1, ⟨ih2a, ih2b⟩, _, ih4, ih5⟩ :=
          splitRetryGo_spec llm parse prompt n (k + 1) calls res hknew heq
        refine ⟨ih1, ⟨by omega, by omega⟩, fun _ => by omega, fun hall => ?_, ih5⟩
        have h4 := ih4 (by intro i hi; exact hall i (by omega))
        exact ⟨h4.1, by omega⟩
    · rw [hp] at heq
      simp only at heq
      obtain ⟨rfl, rfl⟩ := Prod.mk.inj heq.symm
      have hl : ((attemptHistory llm parse prompt k ::
          ((List.range k).map (attemptHistory llm parse prompt)).reverse).reverse).length
          = k + 1 := by simp
      refine ⟨by simp [List.range_succ], ⟨by omega, by omega⟩, fun _ => by omega,
        fun hall => ?_, fun t ht => ?_⟩
      · obtain ⟨e2, he2⟩ := hall k (by omega)
        rw [hp] at he2
        simp at he2
      · obtain rfl := (Except.ok.inj ht).symm
        refine ⟨by omega, ?_⟩
        have hidx : ((attemptHistory llm parse prompt k ::
            ((List.range k).map (attemptHistory llm parse prompt)).reverse).reverse).length - 1
            = k := by omega
        rw [hidx]
        exact hp

/-- C1 (amended): during hierarchical section splitting the completion
service is called at most 5 times; the message history sent on attempt `n`
(0-indexed) is the original prompt followed by the `n` prior decode-error
corrective turns, one per earlier attempt; when the located JSON of all 5
attempts fails to decode the loop ends with the fatal "cannot return valid
JSON" error after exactly 5 calls; a success returns exactly a tree parsed
from one attempt's response (never a partial tree); and
`split_content_with_llm` surfaces the loop's failure as its own fatal
result.  A response in which no bracketed array is located at all raises an
`IndexError` the loop does not catch, aborting immediately instead of
retrying — see the counterexample. -/
theorem split_retry_protocol (llm : List Msg → String)
    (parse : String → Except ParseErr (List Sec)) (prompt : String) :
    (1 ≤ (splitRetry llm parse prompt).1.length
      ∧ (splitRetry llm parse prompt).1.length ≤ 5)
    ∧ (∀ i, i < (splitRetry llm parse prompt).1.length →
        (splitRetry llm parse prompt).1[i]? = some (attemptHistory llm parse prompt i))
    ∧ (∀ i, (attemptHistory llm parse prompt i).head? = some (userMsg prompt)
        ∧ (attemptHistory llm parse prompt i).length = i + 1)
    ∧ ((∀ i, i < 5 → ∃ e, parse (llm (attemptHistory llm parse prompt i))
          = Except.error (ParseErr.jsonDecodeError e)) →
        (splitRetry llm parse prompt).2
            = Except.error "The LLM cannot return valid JSON after 5 tries."
        ∧ (splitRetry llm parse prompt).1.length = 5)
    ∧ (∀ t, (splitRetry llm parse prompt).2 = Except.ok t →
        ∃ (i : Nat) (hist : List Msg), (splitRetry llm parse prompt).1[i]? = some hist
          ∧ parse (llm hist) = Except.ok t)
    ∧ (∀ (env : SplitEnv) (cache : List (String × List ESec)) (content : List Char)
        (title docHash : Option String) (e : String),
        (get_cached_content_json_tree env cache content docHash).2 = none →
        ¬ content = [] →
        ¬ env.tokenCount (env.promptOf title content) > 100000 →
        (splitRetry env.llm env.parse (env.promptOf title content)).2 = Except.error e →
        split_content_with_llm env cache content title docHash = Except.error e) := by
  obtain ⟨hA, ⟨hB1, hB2⟩, hC, hD, hE⟩ :=
    splitRetryGo_spec llm parse prompt 5 0
      (splitRetry llm parse prompt).1 (splitRetry llm parse prompt).2
      (fun i hi => absurd hi (by omega)) rfl
  have hGet : ∀ i, i < (splitRetry llm parse prompt).1.length →
      (splitRetry llm parse prompt).1[i]? = some (attemptHistory llm parse prompt i) := by
    intro i hi
    conv_lhs => rw [hA]
    rw [List.getElem?_map, List.getElem?_range (by simpa using hi)]
    rfl
  refine ⟨⟨by have := hC (by omega); omega, by omega⟩, hGet, ?_, ?_, ?_, ?_⟩
  · intro i
    exact ⟨rfl, by simp [attemptHistory, attemptErrs_length llm parse prompt i]⟩
  · intro hall
    have hd := hD (by intro i hi; exact hall i (by omega))
    exact ⟨hd.1, by omega⟩
  · intro t ht
    obtain ⟨hpos, hlast⟩ := hE t ht
    exact ⟨(splitRetry llm parse prompt).1.length - 1,
      attemptHistory llm parse prompt ((splitRetry llm parse prompt).1.length - 1),
      hGet _ (by omega), hlast⟩
  · intro env cache content title docHash e hnone hne htok hretry
    simp only [split_content_with_llm]
    rw [hnone]
    simp only [if_neg hne, if_neg htok]
    rcases hsr : splitRetry env.llm env.parse (env.promptOf title content) with ⟨calls2, res2⟩
    rw [hsr] at hretry
    simp only at hretry
    subst hretry
    simp

/-- C1 counterexample: a completion service whose reply contains no
bracketed array makes `parse_llm_response_to_json_list` fail with an
`IndexError`, which the retry loop does not catch — exactly one
completion-service call happens, no corrective follow-up turn is appended,
and the failure is the propagated `IndexError`, not the 5-attempt
exhaustion error the claim describes for unparseable output. -/
theorem split_retry_unparsed_no_retry_cex :
    cexParse (cexLlm [userMsg "PROMPT"]) = Except.error ParseErr.indexError
    ∧ (splitRetry cexLlm cexParse "PROMPT").1 = [[userMsg "PROMPT"]]
    ∧ (splitRetry cexLlm cexParse "PROMPT").2
        = Except.error "IndexError: list index out of range"
    ∧ (splitRetry cexLlm cexParse "PROMPT").1.length ≠ 5 := by
  exact ⟨rfl, rfl, rfl, by decide⟩

/-! ## C2: linearization fan-out -/

/-- C2 (amended): a node with ancestor chain `[A, B]` and header `C`
contributes exactly 3 rows when hierarchized titles are enabled — the node
itself, then the shallow copies headed `"B - C"` and `"A - B - C"`, i.e. one
synthetic row per non-empty suffix of the ancestor chain (the full chain
included), shortest suffix first, each differing from the node only in its
header (so all other fields, the SQL document id included, are shared) —
and exactly 1 row when disabled; `_linearize_sections` emits precisely these
rows for the node before its subsections' rows. -/
theorem linearize_fanout (s : PSec) (A B : String) (hpar : s.parents = [A, B]) :
    nodeRows true s
      = [s, s.setHeader (B ++ " - " ++ s.header),
          s.setHeader (A ++ " - " ++ B ++ " - " ++ s.header)]
    ∧ nodeRows false s = [s]
    ∧ ∀ rest, linearize_sections true (s :: rest)
        = nodeRows true s ++ linearize_sections true s.subsections
            ++ linearize_sections true rest := by
  obtain ⟨h0, c, p, l, d, subs⟩ := s
  simp only [PSec.parents] at hpar
  subst hpar
  refine ⟨?_, ?_, ?_⟩
  · simp [nodeRows, hierRows, PSec.parents, PSec.header, PSec.setHeader, List.range_succ,
      String.intercalate, String.intercalate.go]
  · simp [nodeRows]
  · intro rest
    simp [linearize_sections, PSec.subsections]

/-- C2 counterexample: on a concrete depth-3 node with ancestor chain
`["A", "B"]` and header `"C"`, the rows are emitted in the order `"C"`,
`"B - C"`, `"A - B - C"` — the synthetic row of the shorter suffix `[B]`
comes first and the full (non-proper) chain is used, contradicting the
claimed "every proper non-empty suffix … longest suffix first" generation
order, under which the row after `"C"` would be `"A - B - C"`. -/
theorem linearize_order_cex :
    (linearize_sections true [PSec.mk "C" [] (["A", "B"]) 3 7 []]).map PSec.header
      = ["C", "B - C", "A - B - C"]
    ∧ (["C", "B - C", "A - B - C"] : List String)
      ≠ ["C", "A - B - C", "B - C"] := by
  constructor
  · simp only [linearize_sections, List.append_nil]
    decide
  · decide

theorem linearize_fanout_witness :
    nodeRows true (PSec.mk "C" [] (["A", "B"]) 3 7 [])
      = [PSec.mk "C" [] (["A", "B"]) 3 7 [],
          PSec.mk ("B" ++ " - " ++ "C") [] (["A", "B"]) 3 7 [],
          PSec.mk ("A" ++ " - " ++ "B" ++ " - " ++ "C") [] (["A", "B"]) 3 7 []] :=
  (linearize_fanout (PSec.mk "C" [] (["A", "B"]) 3 7 []) "A" "B" rfl).1

/-! ## C3: the cache short-circuit of the splitter -/

/-- C3: after a successful run of `split_content_with_llm`, running it again
on the same `(hash, content)` with the updated cache performs zero
completion-service calls, finds the tree under the document hash and
returns the identical artifacts, leaving the cache unchanged. -/
theorem split_cache_short_circuit (env : SplitEnv)
    (cache cache2 : List (String × List ESec)) (content : List Char)
    (title title2 docHash : Option String) (hsh : String) (tree : List ESec) (n : Nat)
    (hrun : split_content_with_llm env cache content title docHash
      = Except.ok ((hsh, tree), cache2, n)) :
    split_content_with_llm env cache2 content title2 docHash
      = Except.ok ((hsh, tree), cache2, 0) := by
  simp only [split_content_with_llm, get_cached_content_json_tree] at hrun ⊢
  set h0 := (match docHash with
    | some d => d
    | none => get_doc_hash env.hashFn content)
  rcases hc : cacheLookup cache h0 with _ | res
  · rw [hc] at hrun
    simp only at hrun
    by_cases h1 : content = []
    · rw [if_pos h1] at hrun
      simp at hrun
    · rw [if_neg h1] at hrun
      by_cases h2 : env.tokenCount (env.promptOf title content) > 100000
      · rw [if_pos h2] at hrun
        simp at hrun
      · rw [if_neg h2] at hrun
        rcases hsr : splitRetry env.llm env.parse (env.promptOf title content)
          with ⟨calls, r⟩
        rw [hsr] at hrun
        rcases r with e | tr
        · simp at hrun
        · simp only [Except.ok.injEq, Prod.mk.injEq] at hrun
          obtain ⟨⟨hh, ht⟩, hcache, _⟩ := hrun
          subst hh
          subst ht
          subst hcache
          simp [cacheLookup]
  · rw [hc] at hrun
    simp only [Except.ok.injEq, Prod.mk.injEq] at hrun
    obtain ⟨⟨hh, ht⟩, hcache, _⟩ := hrun
    subst hh
    subst ht
    subst hcache
    rw [hc]

theorem split_cache_short_circuit_witness :
    split_content_with_llm cexEnv ((cexHash, cexTree) :: []) ('d' :: []) none none
      = Except.ok ((cexHash, cexTree), (cexHash, cexTree) :: [], 0) :=
  split_cache_short_circuit cexEnv [] ((cexHash, cexTree) :: []) ('d' :: []) none none none
    cexHash cexTree 1 rfl
